import Mathlib

/-!
# Verification of the Go-AI training core

A shallow embedding of the Go-AI repository's training loop (`train.py`),
Monte-Carlo search mathematics (`go_ai/montecarlo/__init__.py`,
`go_ai/montecarlo/tree.py`, `go_ai/policies.py`) and replay store
(`go_ai/data.py`), together with theorems settling the specification's
claims about them.

Modelling conventions:
* Python/numpy floating point is modelled by exact rationals `ℚ`.
* A numpy 1-D array of length `n` is modelled as a function `ℕ → ℚ`
  together with the explicit size `n`; all statements quantify over
  indices `< n` only.
* `np.exp` (and the exponential inside `scipy.special.softmax`) is an
  external transcendental function; it is modelled by an explicit
  function parameter `exp : ℚ → ℚ`, with only the properties actually
  relied on (strict monotonicity, strict positivity) taken as
  hypotheses.  `expQ` below is a concrete computable function with these
  properties, used to instantiate witnesses.
* Randomness (`random.sample`, `random.shuffle`) is modelled by explicit
  selection/permutation parameters constrained by hypotheses.
-/

namespace GoAI

/-! ## Generic helpers: list max/min, vectors as indexed families -/

/-- `np.max` of a nonempty list (junk value `0` on `[]`, where numpy raises). -/
def listMax : List ℚ → ℚ
  | [] => 0
  | x :: xs => xs.foldl max x

/-- `np.min` of a nonempty list (junk value `0` on `[]`, where numpy raises). -/
def listMin : List ℚ → ℚ
  | [] => 0
  | x :: xs => xs.foldl min x

theorem le_foldl_max (xs : List ℚ) : ∀ a x : ℚ, (x = a ∨ x ∈ xs) → x ≤ xs.foldl max a := by
  induction xs with
  | nil =>
    intro a x hx
    rcases hx with rfl | h
    · exact le_refl x
    · cases h
  | cons y ys ih =>
    intro a x hx
    have hstep : max a y ≤ ys.foldl max (max a y) := ih (max a y) (max a y) (Or.inl rfl)
    rcases hx with rfl | h
    · exact le_trans (le_max_left x y) hstep
    · rcases List.mem_cons.mp h with rfl | hmem
      · exact le_trans (le_max_right a x) hstep
      · exact ih (max a y) x (Or.inr hmem)

theorem foldl_max_cases (xs : List ℚ) (a : ℚ) : xs.foldl max a = a ∨ xs.foldl max a ∈ xs := by
  induction xs generalizing a with
  | nil => exact Or.inl rfl
  | cons y ys ih =>
    simp only [List.foldl_cons]
    rcases ih (max a y) with h | h
    · rcases max_choice a y with hm | hm
      · exact Or.inl (h.trans hm)
      · exact Or.inr (List.mem_cons.mpr (Or.inl (h.trans hm)))
    · exact Or.inr (List.mem_cons.mpr (Or.inr h))

theorem le_listMax {xs : List ℚ} {x : ℚ} (hx : x ∈ xs) : x ≤ listMax xs := by
  cases xs with
  | nil => cases hx
  | cons y ys =>
    rcases List.mem_cons.mp hx with rfl | hmem
    · exact le_foldl_max ys x x (Or.inl rfl)
    · exact le_foldl_max ys y x (Or.inr hmem)

theorem listMax_mem {xs : List ℚ} (h : xs ≠ []) : listMax xs ∈ xs := by
  cases xs with
  | nil => exact absurd rfl h
  | cons y ys =>
    rcases foldl_max_cases ys y with heq | hmem
    · exact List.mem_cons.mpr (Or.inl heq)
    · exact List.mem_cons.mpr (Or.inr hmem)

theorem foldl_min_le (xs : List ℚ) : ∀ a x : ℚ, (x = a ∨ x ∈ xs) → xs.foldl min a ≤ x := by
  induction xs with
  | nil =>
    intro a x hx
    rcases hx with rfl | h
    · exact le_refl x
    · cases h
  | cons y ys ih =>
    intro a x hx
    have hstep : ys.foldl min (min a y) ≤ min a y := ih (min a y) (min a y) (Or.inl rfl)
    rcases hx with rfl | h
    · exact le_trans hstep (min_le_left x y)
    · rcases List.mem_cons.mp h with rfl | hmem
      · exact le_trans hstep (min_le_right a x)
      · exact ih (min a y) x (Or.inr hmem)

theorem foldl_min_cases (xs : List ℚ) (a : ℚ) : xs.foldl min a = a ∨ xs.foldl min a ∈ xs := by
  induction xs generalizing a with
  | nil => exact Or.inl rfl
  | cons y ys ih =>
    simp only [List.foldl_cons]
    rcases ih (min a y) with h | h
    · rcases min_choice a y with hm | hm
      · exact Or.inl (h.trans hm)
      · exact Or.inr (List.mem_cons.mpr (Or.inl (h.trans hm)))
    · exact Or.inr (List.mem_cons.mpr (Or.inr h))

theorem listMin_le {xs : List ℚ} {x : ℚ} (hx : x ∈ xs) : listMin xs ≤ x := by
  cases xs with
  | nil => cases hx
  | cons y ys =>
    rcases List.mem_cons.mp hx with rfl | hmem
    · exact foldl_min_le ys x x (Or.inl rfl)
    · exact foldl_min_le ys y x (Or.inr hmem)

theorem listMin_mem {xs : List ℚ} (h : xs ≠ []) : listMin xs ∈ xs := by
  cases xs with
  | nil => exact absurd rfl h
  | cons y ys =>
    rcases foldl_min_cases ys y with heq | hmem
    · exact List.mem_cons.mpr (Or.inl heq)
    · exact List.mem_cons.mpr (Or.inr hmem)

/-- The values of a numpy vector `(n, q)` as a list, in index order. -/
def vecList (n : ℕ) (q : ℕ → ℚ) : List ℚ := (List.range n).map q

/-- `np.sum` of a vector. -/
def vecSum (n : ℕ) (q : ℕ → ℚ) : ℚ := (vecList n q).sum

/-- `np.max` of a vector. -/
def npMax (n : ℕ) (q : ℕ → ℚ) : ℚ := listMax (vecList n q)

/-- `np.min` of a vector. -/
def npMin (n : ℕ) (q : ℕ → ℚ) : ℚ := listMin (vecList n q)

theorem le_npMax {n : ℕ} {q : ℕ → ℚ} {i : ℕ} (hi : i < n) : q i ≤ npMax n q :=
  le_listMax (List.mem_map.mpr ⟨i, List.mem_range.mpr hi, rfl⟩)

theorem npMax_attained {n : ℕ} (q : ℕ → ℚ) (hn : n ≠ 0) :
    ∃ k, k < n ∧ q k = npMax n q := by
  have hne : vecList n q ≠ [] := by
    simp [vecList, List.map_eq_nil_iff, List.range_eq_nil, hn]
  obtain ⟨k, hk, hqk⟩ := List.mem_map.mp (listMax_mem hne)
  exact ⟨k, List.mem_range.mp hk, hqk⟩

theorem npMin_le {n : ℕ} {q : ℕ → ℚ} {i : ℕ} (hi : i < n) : npMin n q ≤ q i :=
  listMin_le (List.mem_map.mpr ⟨i, List.mem_range.mpr hi, rfl⟩)

theorem npMin_attained {n : ℕ} (q : ℕ → ℚ) (hn : n ≠ 0) :
    ∃ k, k < n ∧ q k = npMin n q := by
  have hne : vecList n q ≠ [] := by
    simp [vecList, List.map_eq_nil_iff, List.range_eq_nil, hn]
  obtain ⟨k, hk, hqk⟩ := List.mem_map.mp (listMin_mem hne)
  exact ⟨k, List.mem_range.mp hk, hqk⟩

/-- Dividing every element of a list by a constant divides the sum. -/
theorem sum_map_div (l : List ℚ) (s : ℚ) : (l.map (fun x => x / s)).sum = l.sum / s := by
  induction l with
  | nil => simp
  | cons x xs ih => simp [ih, add_div]

/-- A concrete, computable stand-in for the real exponential on `ℚ`:
strictly monotone, strictly positive, and equal to `1` at `0`.  Witness
theorems instantiate the abstract `exp` parameter of the embeddings with
this function; the claim theorems only ever use the listed properties. -/
def expQ (x : ℚ) : ℚ := if 0 ≤ x then 1 + x else 1 / (1 - x)

theorem expQ_pos (x : ℚ) : 0 < expQ x := by
  unfold expQ
  split
  · linarith
  · have hx : (0:ℚ) < 1 - x := by linarith [lt_of_not_le (by assumption : ¬ 0 ≤ x)]
    positivity

theorem expQ_strictMono : StrictMono expQ := by
  intro x y hxy
  unfold expQ
  rcases le_or_lt 0 x with hx | hx
  · rcases le_or_lt 0 y with hy | hy
    · simp only [if_pos hx, if_pos hy]; linarith
    · exact absurd (hx.trans hxy.le) (not_le.mpr hy)
  · rcases le_or_lt 0 y with hy | hy
    · simp only [if_neg (not_le.mpr hx), if_pos hy]
      have h1 : (0:ℚ) < 1 - x := by linarith
      have : 1 / (1 - x) < 1 := by
        rw [div_lt_one h1]; linarith
      linarith
    · simp only [if_neg (not_le.mpr hx), if_neg (not_le.mpr hy)]
      have h1 : (0:ℚ) < 1 - x := by linarith
      have h2 : (0:ℚ) < 1 - y := by linarith
      rw [div_lt_div_iff₀ h1 h2]
      linarith

/-! ## `go_ai/montecarlo/__init__.py` -/

/-- `invert_val` (montecarlo/__init__.py line 11). -/
def invert_val (val : ℚ) : ℚ := -val

/-- `np.argwhere(valid_moves).flatten()`: the indices `< n` whose mask
entry is nonzero, in increasing order.  `valid` is the numpy 0/1
valid-move indicator. -/
def validActions (n : ℕ) (valid : ℕ → ℚ) : List ℕ :=
  (List.range n).filter fun i => decide (valid i ≠ 0)

/-- `vals_to_qs` (montecarlo/__init__.py lines 22-30): start from
`np.zeros(action_size)` and, enumerating the valid actions, write the
inverted child value of the `child_idx`-th canonical child at that
action.  `n` is `GoGame.get_action_size(state)` and `valid` the state's
valid-move mask; `canonical_childvals` holds one value per valid action
(the caller produces exactly that many children). -/
def vals_to_qs (n : ℕ) (canonical_childvals : List ℚ) (valid : ℕ → ℚ) : ℕ → ℚ :=
  ((validActions n valid).zip canonical_childvals).foldl
    (fun qvals p => Function.update qvals p.1 (invert_val p.2)) (fun _ => 0)

/-- `sklearn.preprocessing.normalize(·, norm='l1')` on one row: divide by
the sum of absolute values; rows of norm `0` are returned unchanged. -/
def l1Normalize (n : ℕ) (p : ℕ → ℚ) : ℕ → ℚ :=
  let s := vecSum n (fun i => |p i|)
  if s = 0 then p else fun i => p i / s

/-- `greedy_pi` (montecarlo/__init__.py lines 51-57).  `exp` models
`np.exp`.  Steps: `expq = np.exp(qvals - np.max(qvals))`,
`expq *= valid_moves`, `max_qs = np.max(expq)`,
`pi = (expq == max_qs).astype(int)`, l1-normalize. -/
def greedy_pi (exp : ℚ → ℚ) (n : ℕ) (qvals valid_moves : ℕ → ℚ) : ℕ → ℚ :=
  let expq0 := fun i => exp (qvals i - npMax n qvals)
  let expq := fun i => expq0 i * valid_moves i
  let max_qs := npMax n expq
  let pi := fun i => if expq i = max_qs then (1 : ℚ) else 0
  l1Normalize n pi

/-- `batch_greedy_pi` (montecarlo/__init__.py lines 60-66): the same
computation applied independently to each row (the row max is taken with
`axis=1`), so it is the rowwise zip of `greedy_pi`. -/
def batch_greedy_pi (exp : ℚ → ℚ) (n : ℕ) (batch_qvals batch_valid_moves : List (ℕ → ℚ)) :
    List (ℕ → ℚ) :=
  List.zipWith (fun q v => greedy_pi exp n q v) batch_qvals batch_valid_moves

/-- `scipy.special.softmax` on one row of length `n` (scipy subtracts the
row max before exponentiating; with a true exponential this is the
ordinary softmax). -/
def np_softmax (exp : ℚ → ℚ) (n : ℕ) (x : ℕ → ℚ) : ℕ → ℚ :=
  let e := fun i => exp (x i - npMax n x)
  fun i => e i / vecSum n e

/-- `batch_temperate_pi` (montecarlo/__init__.py lines 81-88): for
`temp ≤ 0` fall back to `batch_greedy_pi`; otherwise apply a full-row
softmax to `batch_qvals * (1/temp)`.  Note the `temp > 0` branch uses
`batch_valid_moves` nowhere. -/
def batch_temperate_pi (exp : ℚ → ℚ) (n : ℕ) (batch_qvals : List (ℕ → ℚ)) (temp : ℚ)
    (batch_valid_moves : List (ℕ → ℚ)) : List (ℕ → ℚ) :=
  if temp ≤ 0 then
    batch_greedy_pi exp n batch_qvals batch_valid_moves
  else
    batch_qvals.map fun row => np_softmax exp n (fun i => row i * (1 / temp))

/-! ## `go_ai/policies.py` — `MCTS.mcts_qvals` (lines 170-211)

The game environment is external; the embedding receives the data the
environment and the value network supply: the valid-move mask of the
current state, the value of each canonical child (one per valid action,
in action order, as `val_func` returns them), each child's terminal flag
(`GoGame.get_game_ended(child)`) and the list of grandchild values
(`val_func` applied to `GoGame.get_children(child)`). -/

/-- `np.mean([a, b])`. -/
def npMean2 (a b : ℚ) : ℚ := (a + b) / 2

/-- Insert into a list sorted by `le`. -/
def insertLe (le : ℕ → ℕ → Bool) (x : ℕ) : List ℕ → List ℕ
  | [] => [x]
  | y :: ys => if le x y then x :: y :: ys else y :: insertLe le x ys

/-- Insertion sort by `le`. -/
def sortLe (le : ℕ → ℕ → Bool) : List ℕ → List ℕ
  | [] => []
  | x :: xs => insertLe le x (sortLe le xs)

theorem insertLe_perm (le : ℕ → ℕ → Bool) (x : ℕ) :
    ∀ l : List ℕ, (insertLe le x l).Perm (x :: l) := by
  intro l
  induction l with
  | nil => exact List.Perm.refl _
  | cons y ys ih =>
    by_cases h : le x y
    · simp [insertLe, h]
    · simp only [insertLe, h, Bool.false_eq_true, if_false]
      exact (List.Perm.cons y ih).trans (List.Perm.swap x y ys)

theorem sortLe_perm (le : ℕ → ℕ → Bool) : ∀ l : List ℕ, (sortLe le l).Perm l := by
  intro l
  induction l with
  | nil => exact List.Perm.refl _
  | cons x xs ih => exact (insertLe_perm le x (sortLe le xs)).trans (List.Perm.cons x ih)

/-- `np.argsort` (ascending).  numpy's default sort order between equal
keys is unspecified; the embedding sorts the index list `[0, …, len-1]`
stably by value. -/
def npArgsort (l : List ℚ) : List ℕ :=
  sortLe (fun i j => decide (l.getD i 0 ≤ l.getD j 0)) (List.range l.length)

theorem npArgsort_perm (l : List ℚ) : (npArgsort l).Perm (List.range l.length) :=
  sortLe_perm _ _

theorem npArgsort_nodup (l : List ℚ) : (npArgsort l).Nodup :=
  ((npArgsort_perm l).nodup_iff).mpr (List.nodup_range _)

theorem npArgsort_mem_lt {l : List ℚ} {k : ℕ} (hk : k ∈ npArgsort l) : k < l.length :=
  List.mem_range.mp ((npArgsort_perm l).mem_iff.mp hk)

/-- The deepening loop over `best_child_idcs` (policies.py lines
186-198): terminal children are skipped (`continue`); otherwise the
child's action entry of `post_qs` is overwritten with the mean of the
prior Q-value (`curr_qval = prior_qs[action_to_child]`, read from
`prior_qs`) and the minimum grandchild value. -/
def deepenFold (acts : List ℕ) (term : List Bool) (grands : List (List ℚ))
    (prior : ℕ → ℚ) (best : List ℕ) : ℕ → ℚ :=
  best.foldl
    (fun post k =>
      if term.getD k true then post
      else
        Function.update post (acts.getD k 0)
          (npMean2 (prior (acts.getD k 0)) (listMin (grands.getD k []))))
    prior

/-- `np.sum(post_qs != prior_qs)`: the number of action entries the
deepening pass actually changed. -/
def changesCount (n : ℕ) (prior post : ℕ → ℚ) : ℕ :=
  ((List.range n).filter fun a => decide (post a ≠ prior a)).length

/-- `bias_correction = np.min(post_qs - prior_qs)` (policies.py line
202): the minimum of the elementwise difference over the WHOLE
`action_size`-length vector. -/
def bias_correction (n : ℕ) (prior post : ℕ → ℚ) : ℚ :=
  npMin n (fun a => post a - prior a)

/-- The bias-application loop over `remaining_child_idcs` (policies.py
lines 204-209): terminal children are skipped; otherwise
`post_qs[action_to_child] += bias_correction`. -/
def remainingFold (acts : List ℕ) (term : List Bool) (bias : ℚ)
    (post : ℕ → ℚ) (remaining : List ℕ) : ℕ → ℚ :=
  remaining.foldl
    (fun post k =>
      if term.getD k true then post
      else Function.update post (acts.getD k 0) (post (acts.getD k 0) + bias))
    post

/-- `prior_qs` of `mcts_qvals` (line 176): `montecarlo.vals_to_qs`. -/
def mcts_prior_qs (n : ℕ) (child_vals : List ℚ) (valid : ℕ → ℚ) : ℕ → ℚ :=
  vals_to_qs n child_vals valid

/-- `post_qs` after the deepening pass, before bias correction. -/
def mcts_post1 (n : ℕ) (child_vals : List ℚ) (valid : ℕ → ℚ)
    (term : List Bool) (grands : List (List ℚ)) (num_searches : ℕ) : ℕ → ℚ :=
  deepenFold (validActions n valid) term grands (mcts_prior_qs n child_vals valid)
    ((npArgsort child_vals).take num_searches)

/-- `MCTS.mcts_qvals` (policies.py lines 170-211), returning
`(prior_qs, post_qs)`.  For `num_searches = 0` the search block is
skipped and `post_qs` is a copy of `prior_qs`. -/
def mcts_qvals (n : ℕ) (child_vals : List ℚ) (valid : ℕ → ℚ)
    (term : List Bool) (grands : List (List ℚ)) (num_searches : ℕ) :
    (ℕ → ℚ) × (ℕ → ℚ) :=
  if num_searches > 0 then
    (mcts_prior_qs n child_vals valid,
      if changesCount n (mcts_prior_qs n child_vals valid)
          (mcts_post1 n child_vals valid term grands num_searches) > 0 then
        remainingFold (validActions n valid) term
          (bias_correction n (mcts_prior_qs n child_vals valid)
            (mcts_post1 n child_vals valid term grands num_searches))
          (mcts_post1 n child_vals valid term grands num_searches)
          ((npArgsort child_vals).drop num_searches)
      else mcts_post1 n child_vals valid term grands num_searches)
  else (mcts_prior_qs n child_vals valid, mcts_prior_qs n child_vals valid)

/-- The bias correction as the specification words it: the minimum
Q-value change among only the successfully deepened (non-terminal)
children of the `best_child_idcs` selection.  Stated for comparison with
`bias_correction`, which the code computes over the whole vector. -/
def spec_bias_correction (n : ℕ) (child_vals : List ℚ) (valid : ℕ → ℚ)
    (term : List Bool) (grands : List (List ℚ)) (num_searches : ℕ) : ℚ :=
  let acts := validActions n valid
  let prior := mcts_prior_qs n child_vals valid
  let post1 := mcts_post1 n child_vals valid term grands num_searches
  listMin ((((npArgsort child_vals).take num_searches).filter
      fun k => !(term.getD k true)).map
    fun k => post1 (acts.getD k 0) - prior (acts.getD k 0))

/-! ## `go_ai/montecarlo/tree.py` — one `mct_search` iteration body

`mct_search` (tree.py lines 27-50) runs `num_searches` iterations; each
iteration first walks the selection loop (`while curr_node.visits > 0 and
not curr_node.terminal`) and then runs the body of lines 34-48 on the
node the selection landed on.  The embedding below transcribes that body,
taking the landing node's terminal flag and state as inputs.  The `Node`
class lives in `go_ai/montecarlo/node.py`, which is not part of the
sources at hand; following the specification, `backprop` walks the
path to the root once per call and `set_prior_pi` records a distribution
on the node, so the body's externally visible effects are recorded as an
event log: the ordered list of backpropagated signals from the landing
node, and the states handed to the value and prior-policy networks. -/

/-- `np.finfo(np.float32).min` as an exact rational:
`-(2 - 2^-23) * 2^127 = -(2^128 - 2^104)`. -/
def float32_min : ℚ := -(2 ^ 128 - 2 ^ 104)

/-- The externally visible events of one `mct_search` iteration body. -/
structure IterEvents (S : Type) where
  /-- Signals backpropagated from the landing node, in program order;
  `none` is the null signal of `curr_node.backprop(None)`. -/
  backprops : List (Option ℚ)
  /-- States passed to the value network `val_func`. -/
  val_calls : List S
  /-- States passed to the prior-policy network `pi_func`. -/
  pi_calls : List S
  /-- The prior distribution recorded by `set_prior_pi`. -/
  prior_pi : ℕ → ℚ

/-- The body of one `mct_search` iteration (tree.py lines 34-48), run on
the node that selection landed on.  `tanh` models `np.tanh`, `exp` the
exponential inside `scipy.special.softmax`; `val_of`/`pi_of` are the
value and policy networks, `valid_of` the valid-move mask of a state and
`nsz` its action size.  Line by line: if the node is terminal,
`backprop(None)`; then (unconditionally — there is no `continue`)
`val = tanh(val_func(leaf_state))`, `invert_val`, prior computation with
the invalid-move bias, `set_prior_pi`, and `backprop(invert_val)`. -/
def mct_iteration {S : Type} (tanh exp : ℚ → ℚ) (val_of : S → ℚ) (pi_of : S → ℕ → ℚ)
    (valid_of : S → ℕ → ℚ) (nsz : S → ℕ) (leaf_terminal : Bool) (leaf_state : S) :
    IterEvents S :=
  let terminal_backprops : List (Option ℚ) := if leaf_terminal then [Option.none] else []
  let logit := val_of leaf_state
  let val := tanh logit
  let inv := invert_val val
  let n := nsz leaf_state
  let prior_logits := pi_of leaf_state
  let valid_moves := valid_of leaf_state
  let invalid_values := fun i => float32_min * (1 - valid_moves i)
  let prior_pi := np_softmax exp n (fun i => prior_logits i * valid_moves i + invalid_values i)
  { backprops := terminal_backprops ++ [Option.some inv]
    val_calls := [leaf_state]
    pi_calls := [leaf_state]
    prior_pi := prior_pi }

/-! ## `go_ai/data.py` -/

/-- Python's `pat in s` substring test on character lists. -/
def listStartsWith : List Char → List Char → Bool
  | [], _ => true
  | _ :: _, [] => false
  | p :: ps, c :: cs => p == c && listStartsWith ps cs

/-- `pat in s` (Python substring containment). -/
def substrIn (pat : List Char) : List Char → Bool
  | [] => listStartsWith pat []
  | c :: cs => listStartsWith pat (c :: cs) || substrIn pat cs

/-- The literal `'.pickle'`. -/
def pickleStr : List Char := ".pickle".toList

/-- `load_replaydata` (data.py lines 67-83).  A directory listing is a
list of `(filename, deserialized contents)` pairs in `os.listdir` order;
each file's contents is its list of trajectories.  A file is loaded when
`'.pickle' in file` and, if a `worker_rank` is given, when
`str(worker_rank) in file` — a substring test on the decimal digits, not
an exact shard-name match.  Loaded contents are concatenated with
`all_data.extend(worker_data)`. -/
def load_replaydata {τ : Type} (files : List (List Char × List τ))
    (worker_rank : Option ℕ) : List τ :=
  files.foldl
    (fun all_data file =>
      if substrIn pickleStr file.1 then
        match worker_rank with
        | Option.some r =>
          if substrIn (Nat.toDigits 10 r) file.1 then all_data ++ file.2 else all_data
        | Option.none => all_data ++ file.2
      else all_data)
    []

/-- `replays_to_trans_trajs` (data.py lines 47-51): each trajectory is
transposed into its list of per-step transitions and the results are
concatenated.  A trajectory is modelled as its transition list. -/
def replays_to_trans_trajs {τ : Type} (replay_data : List (List τ)) : List τ :=
  replay_data.flatten

/-- `np.array_split(arr, k)`: `len % k` parts of size `len // k + 1`
followed by `k - len % k` parts of size `len // k`. -/
def splitSizes (len k : ℕ) : List ℕ :=
  List.replicate (len % k) (len / k + 1) ++ List.replicate (k - len % k) (len / k)

/-- Cut a list into consecutive chunks of the given sizes. -/
def takeDrops {τ : Type} : List ℕ → List τ → List (List τ)
  | [], _ => []
  | s :: ss, l => l.take s :: takeDrops ss (l.drop s)

/-- `np.array_split`. -/
def np_array_split {τ : Type} (l : List τ) (k : ℕ) : List (List τ) :=
  takeDrops (splitSizes l.length k) l

/-- `sample_replaydata` (data.py lines 86-119), as one worker computes it
(each worker runs the same code on its turn of the barrier round-robin).
`random.sample(all_data, min(request_size, replay_len))` is modelled by
an explicit supply `sel` of pool indices of which the first
`min request_size replay_len` are used (a draw without replacement, so
`sel` has no duplicates and indexes the pool — hypotheses of the
theorems), and `random.shuffle` by an explicit permutation `shuffle`.  The pool is
`load_replaydata(episodesdir)` with NO worker rank: the union of every
worker's shard.  The sampled trajectories are flattened into
transitions, shuffled, and split into `max(sample_size // batchsize, 1)`
batches; the returned `replay_len` counts the trajectories available
before sampling. -/
def sample_replaydata {τ : Type} (files : List (List Char × List (List τ)))
    (request_size batchsize : ℕ) (sel : List ℕ) (shuffle : List τ → List τ) :
    List (List τ) × ℕ :=
  let all_data := load_replaydata files Option.none
  let replay_len := all_data.length
  let sample_data := (sel.take (min request_size replay_len)).map fun i => all_data.getD i []
  let concat_trajs := replays_to_trans_trajs sample_data
  let shuffled := shuffle concat_trajs
  let sample_size := shuffled.length
  let splits := max (sample_size / batchsize) 1
  (np_array_split shuffled splits, replay_len)

/-- The retry loop of `save_replaydata` (data.py lines 122-132):
`success = False; while not success: try: pickle.dump(...); success =
True; except: pass`.  The `k`-th element of `attempts` is the outcome of
the `k`-th `pickle.dump` call (`Except.error` models a raised
exception).  The result is `some k` when the loop exits after attempt
`k` and the call returns normally; `none` means no attempt in the given
prefix succeeded and the loop is still running — no exception ever
escapes to the caller. -/
def save_replaydata_loop : List (Except String Unit) → Option ℕ
  | [] => Option.none
  | Except.ok _ :: _ => Option.some 0
  | Except.error _ :: rest => (save_replaydata_loop rest).map (· + 1)

/-! ## `train.py` -/

/-- The three evaluation opponents, in the order `evaluate` pits them
(train.py line 17): the frozen checkpoint policy, `policies.RAND_PI`,
`policies.GREEDY_PI`. -/
inductive Opponent where
  | Checkpoint
  | Rand
  | Greedy
deriving DecidableEq

/-- The state threaded through `evaluate`'s opponent loop.  `W` is the
type of network weights.  `utils.sync_checkpoint` is not among the
sources at hand; modelled from the spec: promotion overwrites the
checkpoint with the candidate's current weights.  `promoted` records
whether `sync_checkpoint` was invoked, `pitted` which opponents were
actually played (the loop `break`s after a lost checkpoint match). -/
structure EvalState (W : Type) where
  accepted : Bool
  checkpoint : W
  promoted : Bool
  pitted : List Opponent

/-- The opponent loop of `evaluate` (train.py lines 17-32): play the
opponent, record the win rate; against the checkpoint, promote and set
`accepted` when `wr > 0.55`, otherwise `break` out of the loop. -/
def evaluateLoop {W : Type} (wr : Opponent → ℚ) (cand : W) :
    List Opponent → EvalState W → EvalState W
  | [], st => st
  | o :: rest, st =>
    let st' := { st with pitted := st.pitted ++ [o] }
    if o = Opponent.Checkpoint then
      if wr o > 11 / 20 then
        evaluateLoop wr cand rest
          { st' with checkpoint := cand, promoted := true, accepted := true }
      else st'
    else evaluateLoop wr cand rest st'

/-- `evaluate` (train.py lines 12-34).  `wr o` is the win rate
`parallel_play` reports for the candidate against opponent `o`; `0.55`
is the exact rational `11/20`. -/
def evaluate {W : Type} (wr : Opponent → ℚ) (cand checkpoint : W) : EvalState W :=
  evaluateLoop wr cand [Opponent.Checkpoint, Opponent.Rand, Opponent.Greedy]
    { accepted := false, checkpoint := checkpoint, promoted := false, pitted := [] }

/-- A fragment of Python's value universe, sufficient for the value
`evaluate` returns and the literal `True` it is compared against. -/
inductive PyVal where
  | pybool (b : Bool)
  | pypair (fst snd : PyVal)
  | pydictval
deriving DecidableEq

/-- Python `==` on that fragment: booleans compare by value, tuples
elementwise; comparing values of different types (a tuple against a
bool) yields `False`. -/
def pyEq : PyVal → PyVal → Bool
  | PyVal.pybool a, PyVal.pybool b => a == b
  | PyVal.pypair a c, PyVal.pypair b d => pyEq a b && pyEq c d
  | PyVal.pydictval, PyVal.pydictval => true
  | _, _ => false

/-- The Python value of the expression `evaluate(comm, args, curr_pi,
checkpoint_pi, winrates)` at train.py line 93: `evaluate` ends with
`return accepted, winrates` (line 34), a 2-tuple of the boolean and the
win-rate dict. -/
def evaluate_pyret {W : Type} (wr : Opponent → ℚ) (cand checkpoint : W) : PyVal :=
  PyVal.pypair (PyVal.pybool (evaluate wr cand checkpoint).accepted) PyVal.pydictval

/-- The post-evaluation update of `train` (train.py lines 93-102):
`accepted = evaluate(...)` binds the returned tuple, and
`if accepted == True:` clears the replay deque and resets the rejection
counter, else increments it. -/
def train_eval_update {τ : Type} (ret : PyVal) (replay_data : List τ) (rejections : ℕ) :
    List τ × ℕ :=
  if pyEq ret (PyVal.pybool true) then ([], 0) else (replay_data, rejections + 1)

/-- The self-play episode request of the next `train_step` (train.py
lines 45-46): `(2 ** rejections) * args.episodes`. -/
def next_selfplay_episodes (rejections episodes : ℕ) : ℕ :=
  2 ^ rejections * episodes

/-! ## Generic lemmas about the update folds used by the embeddings -/

/-- A fold whose step skips elements satisfying `c` equals the fold over
the filtered list. -/
theorem foldl_skip_filter {κ γ : Type} (c : κ → Bool) (F : γ → κ → γ) :
    ∀ (ks : List κ) (g0 : γ),
      ks.foldl (fun g k => if c k then g else F g k) g0 =
        (ks.filter fun k => !c k).foldl F g0 := by
  intro ks
  induction ks with
  | nil => intro g0; rfl
  | cons k ks ih =>
    intro g0
    by_cases hc : c k
    · simp [List.filter_cons, hc, ih]
    · simp [List.filter_cons, hc, ih]

/-- A fold of pointwise updates leaves every point outside the key set
unchanged, whatever the written values are. -/
theorem foldl_update_keys_not_mem {κ α β : Type} [DecidableEq α] (A : κ → α)
    (val : (α → β) → κ → β) :
    ∀ (ks : List κ) (g0 : α → β) (a : α), a ∉ ks.map A →
      (ks.foldl (fun g k => Function.update g (A k) (val g k)) g0) a = g0 a := by
  intro ks
  induction ks with
  | nil => intro g0 a _; rfl
  | cons k ks ih =>
    intro g0 a ha
    simp only [List.map_cons, List.mem_cons] at ha
    push_neg at ha
    simp only [List.foldl_cons]
    rw [ih _ a ha.2, Function.update_noteq ha.1]

/-- A fold of pointwise updates with values independent of the
accumulator writes `v k` at key `A k`, provided keys are distinct. -/
theorem foldl_update_keys_mem_const {κ α β : Type} [DecidableEq α] (A : κ → α) (v : κ → β) :
    ∀ (ks : List κ) (g0 : α → β), (ks.map A).Nodup →
      ∀ k ∈ ks, (ks.foldl (fun g k => Function.update g (A k) (v k)) g0) (A k) = v k := by
  intro ks
  induction ks with
  | nil => intro g0 _ k hk; cases hk
  | cons k0 ks ih =>
    intro g0 hnd k hk
    simp only [List.map_cons, List.nodup_cons] at hnd
    simp only [List.foldl_cons]
    rcases List.mem_cons.mp hk with rfl | hmem
    · rw [foldl_update_keys_not_mem A _ ks _ (A k) hnd.1, Function.update_same]
    · exact ih _ hnd.2 k hmem

/-- A fold of updates `g (A k) ↦ g (A k) + c` over distinct keys adds
`c` exactly once at each key. -/
theorem foldl_update_keys_mem_add {κ α : Type} [DecidableEq α] (A : κ → α) (c : ℚ) :
    ∀ (ks : List κ) (g0 : α → ℚ), (ks.map A).Nodup →
      ∀ k ∈ ks, (ks.foldl (fun g k => Function.update g (A k) (g (A k) + c)) g0) (A k) =
        g0 (A k) + c := by
  intro ks
  induction ks with
  | nil => intro g0 _ k hk; cases hk
  | cons k0 ks ih =>
    intro g0 hnd k hk
    simp only [List.map_cons, List.nodup_cons] at hnd
    simp only [List.foldl_cons]
    rcases List.mem_cons.mp hk with rfl | hmem
    · rw [foldl_update_keys_not_mem A _ ks _ (A k) hnd.1, Function.update_same]
    · have hne : A k ≠ A k0 := by
        intro heq
        exact hnd.1 (heq ▸ List.mem_map.mpr ⟨k, hmem, rfl⟩)
      have := ih (Function.update g0 (A k0) (g0 (A k0) + c)) hnd.2 k hmem
      rw [this, Function.update_noteq hne]

theorem validActions_nodup (n : ℕ) (valid : ℕ → ℚ) : (validActions n valid).Nodup :=
  (List.nodup_range n).filter _

theorem validActions_lt {n : ℕ} {valid : ℕ → ℚ} {a : ℕ} (ha : a ∈ validActions n valid) :
    a < n :=
  List.mem_range.mp (List.mem_of_mem_filter ha)

theorem validActions_mem_iff {n : ℕ} {valid : ℕ → ℚ} {a : ℕ} :
    a ∈ validActions n valid ↔ a < n ∧ valid a ≠ 0 := by
  simp [validActions, List.mem_filter, List.mem_range]

/-! ## Claim theorems -/

/-- C1: during evaluation, the checkpoint is overwritten with the
candidate's weights (promotion) if and only if the candidate's win rate
against the checkpoint opponent is strictly greater than 0.55; a win
rate exactly equal to 0.55 does not promote. -/
theorem promotion_iff_winrate_above_055 {W : Type} (wr : Opponent → ℚ) (cand checkpoint : W) :
    ((evaluate wr cand checkpoint).promoted = true ↔ wr Opponent.Checkpoint > 11 / 20) ∧
    (evaluate wr cand checkpoint).checkpoint =
      (if wr Opponent.Checkpoint > 11 / 20 then cand else checkpoint) ∧
    (evaluate (fun _ => 11 / 20) cand checkpoint).promoted = false := by
  refine ⟨?_, ?_, ?_⟩ <;>
    [skip; skip;
      simp [evaluate, evaluateLoop, show ¬ ((11 : ℚ) / 20 > 11 / 20) from lt_irrefl _]] <;>
    by_cases h : wr Opponent.Checkpoint > 11 / 20 <;>
    simp [evaluate, evaluateLoop, h]

/-- C2 (code bug): `train` (train.py line 93) binds `evaluate`'s
returned `(accepted, winrates)` tuple to `accepted`, and the Python
comparison `accepted == True` of that tuple against a boolean is always
`False`; hence the replay deque is never cleared and the rejection
counter increments even after a promotion — in particular at a winning
evaluation round (`wr = 1 > 0.55`, candidate accepted, checkpoint
synced), and the next self-play phase then requests `2^rejections *
episodes` episodes despite the acceptance. -/
theorem replay_never_cleared_after_acceptance :
    (∀ (W τ : Type) (wr : Opponent → ℚ) (cand checkpoint : W) (replay : List τ) (rej : ℕ),
      train_eval_update (evaluate_pyret wr cand checkpoint) replay rej = (replay, rej + 1)) ∧
    (evaluate (fun _ => (1 : ℚ)) true false).accepted = true ∧
    (evaluate (fun _ => (1 : ℚ)) true false).promoted = true ∧
    train_eval_update (evaluate_pyret (fun _ => (1 : ℚ)) true false) [(0 : ℕ)] 3 = ([0], 4) ∧
    next_selfplay_episodes 4 8 = 128 := by
  have h1 : ((1 : ℚ) > 11 / 20) := by norm_num
  refine ⟨?_, by simp [evaluate, evaluateLoop, h1], by simp [evaluate, evaluateLoop, h1],
    rfl, by decide⟩
  intro W τ wr cand checkpoint replay rej
  simp [train_eval_update, evaluate_pyret, pyEq]

/-- C3 counterexample: an iteration whose selection lands on a terminal
node still invokes the value network on the terminal node's state
(`val_calls = [leaf_state] ≠ []`) and backpropagates twice (the null
signal, then the inverted value estimate) — tree.py has no `continue`
after `curr_node.backprop(None)`. -/
theorem terminal_iteration_double_backprop_cex :
    (mct_iteration (S := ℕ) id id (fun _ => 0) (fun _ _ => 0) (fun _ _ => 1) (fun _ => 1)
        true 0).val_calls = [0] ∧
    (mct_iteration (S := ℕ) id id (fun _ => 0) (fun _ _ => 0) (fun _ _ => 1) (fun _ => 1)
        true 0).val_calls ≠ [] ∧
    (mct_iteration (S := ℕ) id id (fun _ => 0) (fun _ _ => 0) (fun _ _ => 1) (fun _ => 1)
        true 0).backprops = [Option.none, Option.some 0] := by
  exact ⟨rfl, by decide, rfl⟩

/-- C3 amended: when selection lands on a terminal node, the null signal
is backpropagated, but the iteration then falls through: the value
network is invoked on the terminal state and a second backpropagation
(of the inverted squashed value) follows, so a terminal landing
contributes exactly two backpropagations; a non-terminal landing
contributes one. -/
theorem terminal_iteration_falls_through {S : Type} (tanh exp : ℚ → ℚ) (val_of : S → ℚ)
    (pi_of : S → ℕ → ℚ) (valid_of : S → ℕ → ℚ) (nsz : S → ℕ) (s : S) :
    (mct_iteration tanh exp val_of pi_of valid_of nsz true s).backprops =
      [Option.none, Option.some (invert_val (tanh (val_of s)))] ∧
    (mct_iteration tanh exp val_of pi_of valid_of nsz true s).val_calls = [s] ∧
    (mct_iteration tanh exp val_of pi_of valid_of nsz false s).backprops =
      [Option.some (invert_val (tanh (val_of s)))] :=
  ⟨rfl, rfl, rfl⟩

/-- C9: the retry loop of `save_replaydata` never surfaces an exception:
viewing the `k`-th element of `attempts` as the outcome of the `k`-th
`pickle.dump` call, the loop returns normally (`some`) exactly when some
attempt succeeds, it returns right after the first successful attempt,
and every earlier attempt failed; with no successful attempt in the
prefix it is still retrying (`none`) — exceptions are swallowed by the
bare `except: pass`, never re-raised. -/
theorem save_replaydata_retries_until_success (attempts : List (Except String Unit)) :
    ((save_replaydata_loop attempts).isSome ↔ ∃ a ∈ attempts, a.isOk = true) ∧
    (∀ k, save_replaydata_loop attempts = Option.some k →
      k < attempts.length ∧ (attempts.getD k (Except.error "")).isOk = true ∧
      ∀ j, j < k → (attempts.getD j (Except.error "")).isOk = false) := by
  induction attempts with
  | nil =>
    constructor
    · simp [save_replaydata_loop]
    · intro k hk; cases hk
  | cons a rest ih =>
    cases a with
    | ok u =>
      constructor
      · simp [save_replaydata_loop, Except.isOk, Except.toBool]
      · intro k hk
        have hk0 : k = 0 := by
          simpa [save_replaydata_loop] using hk.symm
        subst hk0
        refine ⟨Nat.succ_pos _, rfl, ?_⟩
        intro j hj; cases hj
    | error e =>
      constructor
      · constructor
        · intro hs
          rcases Option.isSome_iff_exists.mp hs with ⟨k, hk⟩
          simp only [save_replaydata_loop, Option.map_eq_some'] at hk
          rcases hk with ⟨k0, hk0, rfl⟩
          rcases (ih.2 k0 hk0) with ⟨hlt, hok, _⟩
          have hmem : rest.getD k0 (Except.error "") ∈ rest := by
            rw [List.getD_eq_getElem _ _ hlt]
            exact List.getElem_mem _
          exact ⟨rest.getD k0 (Except.error ""), List.mem_cons.mpr (Or.inr hmem), hok⟩
        · intro hex
          rcases hex with ⟨x, hx, hxok⟩
          rcases List.mem_cons.mp hx with rfl | hmem
          · cases hxok
          · have : ∃ a ∈ rest, a.isOk = true := ⟨x, hmem, hxok⟩
            rcases Option.isSome_iff_exists.mp (ih.1.mpr this) with ⟨k, hk⟩
            simp [save_replaydata_loop, hk]
      · intro k hk
        simp only [save_replaydata_loop, Option.map_eq_some'] at hk
        rcases hk with ⟨k0, hk0, rfl⟩
        rcases ih.2 k0 hk0 with ⟨hlt, hok, hbefore⟩
        refine ⟨Nat.succ_lt_succ hlt, hok, ?_⟩
        intro j hj
        cases j with
        | zero => rfl
        | succ j0 => exact hbefore j0 (Nat.lt_of_succ_lt_succ hj)

/-- C10: `load_replaydata` with a worker rank loads every `'.pickle'`
file whose name contains the decimal digits of the rank as a substring
(Python's `in`), concatenating their contents in listing order — so with
rank 1 the files `worker_1.pickle`, `worker_10.pickle` and
`worker_21.pickle` are all loaded, not only worker 1's own shard. -/
theorem load_replaydata_substring_filter :
    (∀ (τ : Type) (files : List (List Char × List τ)) (r : ℕ),
      load_replaydata files (Option.some r) =
        ((files.filter fun f =>
            substrIn pickleStr f.1 && substrIn (Nat.toDigits 10 r) f.1).map
          Prod.snd).flatten) ∧
    load_replaydata
      [("worker_1.pickle".toList, [(10 : ℕ)]), ("worker_10.pickle".toList, [20]),
        ("worker_21.pickle".toList, [30]), ("worker_2.pickle".toList, [40])]
      (Option.some 1) = [10, 20, 30] := by
  have key : ∀ (τ : Type) (files : List (List Char × List τ)) (r : ℕ) (acc : List τ),
      files.foldl
        (fun all_data file =>
          if substrIn pickleStr file.1 then
            if substrIn (Nat.toDigits 10 r) file.1 then all_data ++ file.2 else all_data
          else all_data)
        acc =
      acc ++ ((files.filter fun f =>
          substrIn pickleStr f.1 && substrIn (Nat.toDigits 10 r) f.1).map
        Prod.snd).flatten := by
    intro τ files r
    induction files with
    | nil => intro acc; simp
    | cons f fs ih =>
      intro acc
      cases h1 : substrIn pickleStr f.1 with
      | false => simp [List.filter_cons, h1, ih]
      | true =>
        cases h2 : substrIn (Nat.toDigits 10 r) f.1 with
        | false => simp [List.filter_cons, h1, h2, ih]
        | true => simp [List.filter_cons, h1, h2, ih]
  constructor
  · intro τ files r
    simpa using key τ files r []
  · decide

theorem vecList_ne_nil {n : ℕ} (hn : n ≠ 0) (q : ℕ → ℚ) : vecList n q ≠ [] := by
  simp [vecList, List.map_eq_nil_iff, List.range_eq_nil, hn]

/-- C5 counterexample: in the batched temperature branch (`temp = 1 >
0`), with Q-values `[[0, 0]]` and mask `[[1, 0]]` (action 1 invalid),
the returned probability of the invalid action 1 is `1/2`, not `0`: the
`temp > 0` branch of `batch_temperate_pi` applies a full-row softmax
with no masking at all. -/
theorem batch_temperate_pi_unmasked_cex :
    ((batch_temperate_pi expQ 2 [fun _ => 0] 1 [fun i => if i = 0 then 1 else 0]).getD 0
        (fun _ => 0)) 1 = 1 / 2 ∧
    (fun i => if i = 0 then (1 : ℚ) else 0) 1 = 0 ∧
    ¬ ((1 : ℚ) / 2 = 0) := by
  refine ⟨?_, by norm_num, by norm_num⟩
  simp only [batch_temperate_pi, np_softmax, npMax, vecSum, vecList, listMax, expQ]
  norm_num [List.range_succ]

/-- C5 amended: for every batch, every mask and every temperature
strictly greater than 0, `batch_temperate_pi` applies an UNMASKED
full-row softmax: every entry of every returned row — including every
invalid action's entry — is strictly positive, and each full row sums
to 1 (consequently the valid entries alone sum to less than 1 whenever
an invalid action exists; the mask argument is not used at all in this
branch). -/
theorem batch_temperate_pi_fullrow (exp : ℚ → ℚ) (hpos : ∀ x, 0 < exp x) (n : ℕ)
    (hn : n ≠ 0) (batch_qvals batch_valid_moves : List (ℕ → ℚ)) (temp : ℚ) (ht : 0 < temp) :
    (batch_temperate_pi exp n batch_qvals temp batch_valid_moves).length =
      batch_qvals.length ∧
    ∀ row ∈ batch_temperate_pi exp n batch_qvals temp batch_valid_moves,
      vecSum n row = 1 ∧ ∀ i, 0 < row i := by
  have hnle : ¬ temp ≤ 0 := not_le.mpr ht
  unfold batch_temperate_pi
  rw [if_neg hnle]
  refine ⟨List.length_map _ _, ?_⟩
  intro row hrow
  rcases List.mem_map.mp hrow with ⟨q, hq, rfl⟩
  unfold np_softmax
  set x := fun i => q i * (1 / temp) with hx
  set e := fun i => exp (x i - npMax n x) with he
  have hepos : ∀ i, 0 < e i := fun i => hpos _
  have hS : 0 < vecSum n e := by
    apply List.sum_pos
    · intro y hy
      rcases List.mem_map.mp hy with ⟨i, _, rfl⟩
      exact hepos i
    · exact vecList_ne_nil hn e
  constructor
  · show vecSum n (fun i => e i / vecSum n e) = 1
    have hmap : vecList n (fun i => e i / vecSum n e) =
        (vecList n e).map (fun y => y / vecSum n e) := by
      simp [vecList, List.map_map, Function.comp]
    rw [vecSum, hmap, sum_map_div]
    exact div_self hS.ne'
  · intro i
    exact div_pos (hepos i) hS

/-- C5 witness: the amended theorem applied at the counterexample input
(`expQ` satisfies the positivity hypothesis). -/
theorem batch_temperate_pi_fullrow_witness :
    (batch_temperate_pi expQ 2 [fun _ => 0] 1 [fun i => if i = 0 then 1 else 0]).length = 1 ∧
    vecSum 2 ((batch_temperate_pi expQ 2 [fun _ => 0] 1
      [fun i => if i = 0 then 1 else 0]).getD 0 (fun _ => 0)) = 1 ∧
    0 < ((batch_temperate_pi expQ 2 [fun _ => 0] 1
      [fun i => if i = 0 then 1 else 0]).getD 0 (fun _ => 0)) 1 := by
  obtain ⟨hlen, hrows⟩ := batch_temperate_pi_fullrow expQ expQ_pos 2 (by decide)
    [fun _ => 0] [fun i => if i = 0 then 1 else 0] 1 (by norm_num)
  have hlt : 0 < (batch_temperate_pi expQ 2 [fun _ => 0] 1
      [fun i => if i = 0 then 1 else 0]).length := by
    rw [hlen]; decide
  have hmem : (batch_temperate_pi expQ 2 [fun _ => 0] 1
      [fun i => if i = 0 then 1 else 0]).getD 0 (fun _ => 0) ∈
      batch_temperate_pi expQ 2 [fun _ => 0] 1 [fun i => if i = 0 then 1 else 0] := by
    rw [List.getD_eq_getElem _ _ hlt]
    exact List.getElem_mem _
  rcases hrows _ hmem with ⟨hsum, hposall⟩
  exact ⟨hlen, hsum, hposall 1⟩

/-- C7: for every parent state (given by its valid-move mask and action
size) and every vector of canonical-child values (one per valid action,
as the caller supplies), the derived Q-value vector has, at the `k`-th
valid action, exactly the negation of the `k`-th child's value, and is
exactly zero at every invalid action. -/
theorem vals_to_qs_spec (n : ℕ) (child_vals : List ℚ) (valid : ℕ → ℚ)
    (hlen : (validActions n valid).length ≤ child_vals.length) :
    (∀ i, i < n → valid i = 0 → vals_to_qs n child_vals valid i = 0) ∧
    (∀ k (hk : k < (validActions n valid).length),
      vals_to_qs n child_vals valid ((validActions n valid).get ⟨k, hk⟩) =
        invert_val (child_vals.getD k 0)) := by
  have hfst : (((validActions n valid).zip child_vals).map Prod.fst) = validActions n valid :=
    List.map_fst_zip _ _ hlen
  constructor
  · intro i hi hv
    have hni : i ∉ validActions n valid := fun hmem => (validActions_mem_iff.mp hmem).2 hv
    exact foldl_update_keys_not_mem Prod.fst (fun _ p => invert_val p.2)
      ((validActions n valid).zip child_vals) (fun _ => 0) i (by rw [hfst]; exact hni)
  · intro k hk
    have hk2 : k < child_vals.length := lt_of_lt_of_le hk hlen
    have hzlen : k < ((validActions n valid).zip child_vals).length := by
      rw [List.length_zip]
      exact lt_min hk hk2
    have hpair : ((validActions n valid).zip child_vals).get ⟨k, hzlen⟩ =
        ((validActions n valid).get ⟨k, hk⟩, child_vals.get ⟨k, hk2⟩) := by
      simp [List.getElem_zip]
    have hmem : ((validActions n valid).get ⟨k, hk⟩, child_vals.get ⟨k, hk2⟩) ∈
        (validActions n valid).zip child_vals := by
      rw [← hpair]
      exact List.get_mem _ k hzlen
    have hnd : (((validActions n valid).zip child_vals).map Prod.fst).Nodup := by
      rw [hfst]; exact validActions_nodup n valid
    have := foldl_update_keys_mem_const Prod.fst (fun p => invert_val p.2)
      ((validActions n valid).zip child_vals) (fun _ => 0) hnd
      ((validActions n valid).get ⟨k, hk⟩, child_vals.get ⟨k, hk2⟩) hmem
    have hgd : child_vals.get ⟨k, hk2⟩ = child_vals.getD k 0 := by
      rw [List.getD_eq_getElem _ _ hk2]
      rfl
    rw [← hgd]
    exact this

/-- C7 witness: with mask `[1, 0, 1]` (action 1 invalid) and child
values `[2, 5]`, the Q-vector is zero at the invalid action 1 and
`-2` at the first valid action 0. -/
theorem vals_to_qs_spec_witness :
    vals_to_qs 3 [2, 5] (fun i => if i = 1 then (0 : ℚ) else 1) 1 = 0 ∧
    vals_to_qs 3 [2, 5] (fun i => if i = 1 then (0 : ℚ) else 1) 0 = invert_val 2 := by
  have h := vals_to_qs_spec 3 [2, 5] (fun i => if i = 1 then (0 : ℚ) else 1) (by decide)
  refine ⟨h.1 1 (by decide) (by decide), ?_⟩
  have hget : (validActions 3 (fun i => if i = 1 then (0 : ℚ) else 1)).get
      ⟨0, by decide⟩ = 0 := by decide
  have h2 := h.2 0 (by decide)
  rw [hget] at h2
  simpa using h2

/-- A valid action tied for the maximal Q-value among valid actions
(the claim's "valid actions tied for the maximum"). -/
def isTied (n : ℕ) (qvals valid_moves : ℕ → ℚ) (i : ℕ) : Prop :=
  valid_moves i ≠ 0 ∧ ∀ j, j < n → valid_moves j ≠ 0 → qvals j ≤ qvals i

instance isTied.decidable (n : ℕ) (qvals valid_moves : ℕ → ℚ) :
    DecidablePred (isTied n qvals valid_moves) := fun _ => by
  unfold isTied
  infer_instance

/-- The valid actions tied for the maximal Q-value, in index order. -/
def tiedMax (n : ℕ) (qvals valid_moves : ℕ → ℚ) : List ℕ :=
  (List.range n).filter fun i => decide (isTied n qvals valid_moves i)

/-- Summing a 0/1 indicator over a list counts the matching elements. -/
theorem sum_map_indicator (p : ℕ → Prop) [DecidablePred p] (l : List ℕ) :
    (l.map fun i => if p i then (1 : ℚ) else 0).sum =
      ((l.filter fun i => decide (p i)).length : ℚ) := by
  induction l with
  | nil => simp
  | cons x xs ih =>
    by_cases h : p x
    · simp [h, List.filter_cons, ih, add_comm]
    · simp [h, List.filter_cons, ih]

/-- C8: for every Q-value vector and every 0/1 valid-move mask with at
least one valid move, the greedy distribution sums to 1, assigns zero
probability to every invalid action, assigns `1/T` to each of the `T`
valid actions tied for the maximum Q-value, and zero to every other
action.  The exponential is abstract with only strict monotonicity and
positivity assumed (true of `np.exp`). -/
theorem greedy_pi_spec (exp : ℚ → ℚ) (hmono : StrictMono exp) (hpos : ∀ x, 0 < exp x)
    (n : ℕ) (qvals valid_moves : ℕ → ℚ)
    (h01 : ∀ i, i < n → valid_moves i = 0 ∨ valid_moves i = 1)
    (hex : ∃ i, i < n ∧ valid_moves i = 1) :
    vecSum n (greedy_pi exp n qvals valid_moves) = 1 ∧
    (∀ i, i < n → valid_moves i = 0 → greedy_pi exp n qvals valid_moves i = 0) ∧
    (∀ i ∈ tiedMax n qvals valid_moves,
      greedy_pi exp n qvals valid_moves i =
        1 / ((tiedMax n qvals valid_moves).length : ℚ)) ∧
    (∀ i, i < n → i ∉ tiedMax n qvals valid_moves →
      greedy_pi exp n qvals valid_moves i = 0) := by
  obtain ⟨i0, hi0, hv0⟩ := hex
  have hn : n ≠ 0 := Nat.not_eq_zero_of_lt hi0
  set M := npMax n qvals with hM
  set E := fun i => exp (qvals i - M) with hE
  set expq := fun i => E i * valid_moves i with hexpq
  set mq := npMax n expq with hmq
  set pi := fun i => if expq i = mq then (1 : ℚ) else 0 with hpi
  have hgp : greedy_pi exp n qvals valid_moves = l1Normalize n pi := rfl
  obtain ⟨k, hkn, hkmax⟩ := npMax_attained expq hn
  rw [← hmq] at hkmax
  have hmq_pos : 0 < mq := by
    have h1 : expq i0 = E i0 := by simp [hexpq, hv0]
    have h2 : (0 : ℚ) < expq i0 := by rw [h1]; exact hpos _
    exact lt_of_lt_of_le h2 (le_npMax hi0)
  have hvk1 : valid_moves k = 1 := by
    rcases h01 k hkn with h | h
    · exfalso
      have : expq k = 0 := by simp [hexpq, h]
      rw [hkmax] at this
      exact absurd this hmq_pos.ne'
    · exact h
  have hEk : E k = mq := by
    rw [← hkmax]; simp [hexpq, hvk1]
  have hqmax : ∀ j, j < n → valid_moves j ≠ 0 → qvals j ≤ qvals k := by
    intro j hj hvj
    have hvj1 : valid_moves j = 1 := (h01 j hj).resolve_left hvj
    have hEj : E j ≤ mq := by
      have hsame : expq j = E j := by simp [hexpq, hvj1]
      rw [← hsame]
      exact le_npMax hj
    rw [← hEk] at hEj
    exact (sub_le_sub_iff_right M).mp (hmono.le_iff_le.mp hEj)
  have hchar : ∀ i, i < n → (expq i = mq ↔ isTied n qvals valid_moves i) := by
    intro i hi
    constructor
    · intro he
      rcases h01 i hi with h0 | h1
      · exfalso
        have hz : expq i = 0 := by simp [hexpq, h0]
        rw [he] at hz
        exact absurd hz hmq_pos.ne'
      · have hEi : E i = mq := by rw [← he]; simp [hexpq, h1]
        have hsub : qvals i - M = qvals k - M := hmono.injective (hEi.trans hEk.symm)
        have hqik : qvals i = qvals k := sub_left_inj.mp hsub
        refine ⟨by rw [h1]; exact one_ne_zero, ?_⟩
        intro j hj hvj
        rw [hqik]
        exact hqmax j hj hvj
    · intro htied
      rcases htied with ⟨hne, hbound⟩
      have hvi1 : valid_moves i = 1 := (h01 i hi).resolve_left hne
      have hqik : qvals i = qvals k :=
        le_antisymm (hqmax i hi hne) (hbound k hkn (by rw [hvk1]; exact one_ne_zero))
      have : E i = E k := by rw [hE]; simp [hqik]
      calc expq i = E i := by simp [hexpq, hvi1]
        _ = E k := this
        _ = mq := hEk
  have hkmem : k ∈ tiedMax n qvals valid_moves := by
    rw [tiedMax, List.mem_filter]
    exact ⟨List.mem_range.mpr hkn, decide_eq_true ((hchar k hkn).mp hkmax)⟩
  set T := (tiedMax n qvals valid_moves).length with hT
  have hTpos : 0 < T := List.length_pos.mpr (List.ne_nil_of_mem hkmem)
  have hTQ : ((T : ℚ)) ≠ 0 := Nat.cast_ne_zero.mpr hTpos.ne'
  have habs : (fun i => |pi i|) = pi := by
    funext i
    rw [hpi]
    by_cases h : expq i = mq <;> simp [h]
  have hfilter : ((List.range n).filter fun i => decide (expq i = mq)) =
      tiedMax n qvals valid_moves := by
    rw [tiedMax]
    apply List.filter_congr
    intro i hi
    rw [decide_eq_decide]
    exact hchar i (List.mem_range.mp hi)
  have hpisum : vecSum n pi = (T : ℚ) := by
    rw [vecSum, vecList, hpi]
    rw [sum_map_indicator (fun i => expq i = mq) (List.range n), hfilter]
  have hs : vecSum n (fun i => |pi i|) = (T : ℚ) := by rw [habs, hpisum]
  have hout : greedy_pi exp n qvals valid_moves = fun i => pi i / (T : ℚ) := by
    rw [hgp]
    unfold l1Normalize
    rw [hs, if_neg hTQ]
  refine ⟨?_, ?_, ?_, ?_⟩
  · rw [hout]
    have hmap : vecList n (fun i => pi i / (T : ℚ)) =
        (vecList n pi).map (fun y => y / (T : ℚ)) := by
      simp [vecList, List.map_map, Function.comp]
    rw [vecSum, hmap, sum_map_div, ← vecSum, hpisum]
    exact div_self hTQ
  · intro i hi hvi
    rw [hout]
    have hz : expq i = 0 := by simp [hexpq, hvi]
    have hne : expq i ≠ mq := by rw [hz]; exact hmq_pos.ne
    simp [hpi, hne]
  · intro i hmem
    rw [tiedMax, List.mem_filter] at hmem
    have hi : i < n := List.mem_range.mp hmem.1
    have htied : isTied n qvals valid_moves i := of_decide_eq_true hmem.2
    have heq : expq i = mq := (hchar i hi).mpr htied
    rw [hout]
    simp [hpi, heq]
  · intro i hi hnmem
    have hne : expq i ≠ mq := by
      intro heq
      apply hnmem
      rw [tiedMax, List.mem_filter]
      exact ⟨List.mem_range.mpr hi, decide_eq_true ((hchar i hi).mp heq)⟩
    rw [hout]
    simp [hpi, hne]

/-- C8 witness: Q-values `[5, 5, 1]`, all three actions valid: the two
tied maximizers get `1/2` each, the third action gets `0`, and the
distribution sums to 1. -/
theorem greedy_pi_spec_witness :
    (tiedMax 3 (fun i => if i = 2 then (1 : ℚ) else 5) (fun _ => 1)).length = 2 ∧
    vecSum 3 (greedy_pi expQ 3 (fun i => if i = 2 then (1 : ℚ) else 5) (fun _ => 1)) = 1 ∧
    greedy_pi expQ 3 (fun i => if i = 2 then (1 : ℚ) else 5) (fun _ => 1) 0 =
      1 / ((tiedMax 3 (fun i => if i = 2 then (1 : ℚ) else 5) (fun _ => 1)).length : ℚ) ∧
    greedy_pi expQ 3 (fun i => if i = 2 then (1 : ℚ) else 5) (fun _ => 1) 2 = 0 := by
  have h := greedy_pi_spec expQ expQ_strictMono expQ_pos 3
    (fun i => if i = 2 then (1 : ℚ) else 5) (fun _ => 1)
    (by intro i _; exact Or.inr rfl) ⟨0, by decide, rfl⟩
  exact ⟨by decide, h.1, h.2.2.1 0 (by decide), h.2.2.2 2 (by decide) (by decide)⟩

theorem takeDrops_flatten {τ : Type} :
    ∀ (ss : List ℕ) (l : List τ), (takeDrops ss l).flatten = l.take ss.sum := by
  intro ss
  induction ss with
  | nil => intro l; rfl
  | cons s ss ih =>
    intro l
    simp only [takeDrops, List.flatten_cons, ih, List.sum_cons]
    rw [List.take_add]

theorem splitSizes_sum (len k : ℕ) (hk : k ≠ 0) : (splitSizes len k).sum = len := by
  have hr : len % k < k := Nat.mod_lt _ (Nat.pos_of_ne_zero hk)
  have hab : len % k * (len / k) ≤ k * (len / k) := Nat.mul_le_mul_right _ hr.le
  have hdm : k * (len / k) + len % k = len := Nat.div_add_mod len k
  have h1 : len % k * (len / k + 1) = len % k * (len / k) + len % k := by ring
  have h2 : (k - len % k) * (len / k) = k * (len / k) - len % k * (len / k) :=
    Nat.sub_mul _ _ _
  simp only [splitSizes, List.sum_append, List.sum_replicate, smul_eq_mul]
  omega

/-- C4 amended: one call to the replay sampler returns exactly
`min request_size A` TRAJECTORIES — where `A` is the number of
trajectories in the union of ALL workers' on-disk shards
(`load_replaydata` is called with no worker rank), not the worker's own
shard — flattened into transitions and split into batches: the returned
transitions are, up to the shuffle's reordering, exactly the transitions
of the selected trajectories (so their count is the total length of the
selected trajectories, not `min request_size A`); the returned pool size
is the trajectory count `A`. -/
theorem sample_replaydata_spec {τ : Type} (files : List (List Char × List (List τ)))
    (request_size batchsize : ℕ) (sel : List ℕ) (shuffle : List τ → List τ)
    (hsel : min request_size (load_replaydata files Option.none).length ≤ sel.length)
    (hperm : ∀ l, (shuffle l).Perm l) :
    (sample_replaydata files request_size batchsize sel shuffle).2 =
      (load_replaydata files Option.none).length ∧
    (sel.take (min request_size (load_replaydata files Option.none).length)).length =
      min request_size (load_replaydata files Option.none).length ∧
    ((sample_replaydata files request_size batchsize sel shuffle).1.flatten).Perm
      (((sel.take (min request_size (load_replaydata files Option.none).length)).map
        fun i => (load_replaydata files Option.none).getD i []).flatten) := by
  refine ⟨rfl, ?_, ?_⟩
  · rw [List.length_take]
    exact Nat.min_eq_left hsel
  · show ((np_array_split
        (shuffle (replays_to_trans_trajs
          ((sel.take (min request_size (load_replaydata files Option.none).length)).map
            fun i => (load_replaydata files Option.none).getD i [])))
        (max ((shuffle (replays_to_trans_trajs
          ((sel.take (min request_size (load_replaydata files Option.none).length)).map
            fun i => (load_replaydata files Option.none).getD i []))).length / batchsize)
          1)).flatten).Perm _
    rw [np_array_split, takeDrops_flatten, splitSizes_sum _ _ (by omega), List.take_length]
    exact hperm _

/-- C4 counterexample: a pool holding exactly one trajectory of two
transitions, with `request_size = 1`: the sampler draws
`min(request_size, len(all_data)) = 1` TRAJECTORY and returns its 2
transitions — not `min(request_size, A)` transitions for either reading
of `A` (`A = 1` trajectory or `A = 2` available transitions). -/
theorem sample_replaydata_trajectory_units_cex :
    ((sample_replaydata [("worker_0.pickle".toList, [[(10 : ℕ), 20]])] 1 1 [0]
        id).1.flatten).length = 2 ∧
    (load_replaydata [("worker_0.pickle".toList, [[(10 : ℕ), 20]])] Option.none).length
      = 1 ∧
    (replays_to_trans_trajs
      (load_replaydata [("worker_0.pickle".toList, [[(10 : ℕ), 20]])]
        Option.none)).length = 2 ∧
    (2 : ℕ) ≠ min 1 1 ∧ (2 : ℕ) ≠ min 1 2 := by
  exact ⟨by decide, by decide, by decide, by decide, by decide⟩

/-- C4 witness: the amended theorem applied to a two-shard pool of three
trajectories with `request_size = 2` and the draw `[0, 2]`: the returned
pool size is 3 and the returned transitions are those of trajectories 0
and 2. -/
theorem sample_replaydata_spec_witness :
    (sample_replaydata [("worker_0.pickle".toList, [[(1 : ℕ)], [2, 3]]),
        ("worker_1.pickle".toList, [[4]])] 2 2 [0, 2] id).2 = 3 ∧
    ((sample_replaydata [("worker_0.pickle".toList, [[(1 : ℕ)], [2, 3]]),
        ("worker_1.pickle".toList, [[4]])] 2 2 [0, 2] id).1.flatten).Perm [1, 4] := by
  obtain ⟨c1, c2, c3⟩ := sample_replaydata_spec
    [("worker_0.pickle".toList, [[(1 : ℕ)], [2, 3]]), ("worker_1.pickle".toList, [[4]])]
    2 2 [0, 2] id (by decide) (fun l => List.Perm.refl l)
  constructor
  · rw [c1]; decide
  · exact c3.trans (by decide)

theorem nodup_map_getD {l : List ℕ} (hnd : l.Nodup) {ks : List ℕ} (hks : ks.Nodup)
    (hlt : ∀ k ∈ ks, k < l.length) : (ks.map fun k => l.getD k 0).Nodup := by
  refine List.Nodup.map_on ?_ hks
  intro x hx y hy heq
  rw [List.getD_eq_getElem _ _ (hlt x hx), List.getD_eq_getElem _ _ (hlt y hy)] at heq
  exact (List.Nodup.getElem_inj_iff hnd).mp heq

theorem getD_mem_of_lt {l : List ℕ} {k : ℕ} (hk : k < l.length) : l.getD k 0 ∈ l := by
  rw [List.getD_eq_getElem _ _ hk]
  exact List.getElem_mem _

/-- C6 amended: (a) terminal children are indeed excluded from
deepening — the output of `mcts_qvals` does not depend on the grandchild
values of terminal children; but (b) the bias correction the code
applies is `np.min(post_qs - prior_qs)` over the WHOLE action vector,
which equals `min 0 b` where `b` is the minimum change among the
successfully deepened (non-terminal) children — i.e. it is additionally
clamped by the `0` of any unchanged entry (any invalid action or
non-deepened child), not the deepened-children minimum itself; and
(c) every non-terminal non-deepened child's action receives exactly that
clamped bias (terminal or deepened ones receive none). -/
theorem mcts_qvals_bias_spec (n : ℕ) (cvs : List ℚ) (valid : ℕ → ℚ) (term : List Bool)
    (grands : List (List ℚ)) (s : ℕ)
    (hlen : cvs.length = (validActions n valid).length)
    (hz : ∃ a, a < n ∧
      mcts_post1 n cvs valid term grands s a = mcts_prior_qs n cvs valid a) :
    (∀ grands2 : List (List ℚ),
      (∀ k, term.getD k true = false → grands2.getD k [] = grands.getD k []) →
      mcts_qvals n cvs valid term grands2 s = mcts_qvals n cvs valid term grands s) ∧
    bias_correction n (mcts_prior_qs n cvs valid) (mcts_post1 n cvs valid term grands s) =
      min 0 (spec_bias_correction n cvs valid term grands s) ∧
    (∀ k ∈ (npArgsort cvs).drop s, term.getD k true = false → s > 0 →
      changesCount n (mcts_prior_qs n cvs valid)
        (mcts_post1 n cvs valid term grands s) > 0 →
      (mcts_qvals n cvs valid term grands s).2 ((validActions n valid).getD k 0) =
        mcts_post1 n cvs valid term grands s ((validActions n valid).getD k 0) +
          bias_correction n (mcts_prior_qs n cvs valid)
            (mcts_post1 n cvs valid term grands s)) := by
  set acts := validActions n valid with hacts
  set prior := mcts_prior_qs n cvs valid with hprior
  set post1 := mcts_post1 n cvs valid term grands s with hpost1def
  set best := (npArgsort cvs).take s with hbest
  set bestNT := best.filter (fun k => !(term.getD k true)) with hbestNT
  set A := fun k => acts.getD k 0 with hA
  set V := fun k => npMean2 (prior (A k)) (listMin (grands.getD k [])) with hV
  have hAlt : ∀ k, k < acts.length → A k < n := by
    intro k hk
    exact validActions_lt (getD_mem_of_lt hk)
  have hbest_lt : ∀ k ∈ bestNT, k < acts.length := by
    intro k hk
    have h1 : k ∈ best := List.mem_of_mem_filter hk
    have h2 : k ∈ npArgsort cvs := List.mem_of_mem_take h1
    rw [← hlen]
    exact npArgsort_mem_lt h2
  have hbestNT_nodup : bestNT.Nodup :=
    (((npArgsort_nodup cvs).sublist (List.take_sublist _ _)).filter _)
  have hmapA_nodup : (bestNT.map A).Nodup :=
    nodup_map_getD (validActions_nodup n valid) hbestNT_nodup hbest_lt
  have hpost1 : post1 = bestNT.foldl (fun post k => Function.update post (A k) (V k)) prior := by
    rw [hpost1def]
    unfold mcts_post1 deepenFold
    rw [foldl_skip_filter]
  have hpost1_unchanged : ∀ a, a ∉ bestNT.map A → post1 a = prior a := by
    intro a ha
    rw [hpost1]
    exact foldl_update_keys_not_mem A (fun _ k => V k) bestNT prior a ha
  have hpost1_deepened : ∀ k ∈ bestNT, post1 (A k) = V k := by
    intro k hk
    rw [hpost1]
    exact foldl_update_keys_mem_const A V bestNT prior hmapA_nodup k hk
  obtain ⟨a0, ha0n, ha0eq⟩ := hz
  have hn : n ≠ 0 := Nat.not_eq_zero_of_lt ha0n
  refine ⟨?_, ?_, ?_⟩
  · -- (a) insensitivity to grandchild values of terminal children
    intro grands2 hag
    have hd : mcts_post1 n cvs valid term grands2 s = mcts_post1 n cvs valid term grands s := by
      unfold mcts_post1 deepenFold
      congr 1
      funext post k
      by_cases h : term.getD k true = true
      · rw [if_pos h, if_pos h]
      · have hfalse : term.getD k true = false := by simpa using h
        rw [if_neg h, if_neg h, hag k hfalse]
    simp only [mcts_qvals, hd]
  · -- (b) the applied bias is min 0 (minimum deepened change)
    set ds := bestNT.map (fun k => post1 (A k) - prior (A k)) with hds
    have hspec : spec_bias_correction n cvs valid term grands s = listMin ds := rfl
    have hvecne : vecList n (fun a => post1 a - prior a) ≠ [] :=
      vecList_ne_nil hn _
    have hbias : bias_correction n prior post1 =
        listMin (vecList n (fun a => post1 a - prior a)) := rfl
    rw [hbias, hspec]
    have hmemvec : ∀ k ∈ bestNT, post1 (A k) - prior (A k) ∈
        vecList n (fun a => post1 a - prior a) := by
      intro k hk
      exact List.mem_map.mpr ⟨A k, List.mem_range.mpr (hAlt k (hbest_lt k hk)), rfl⟩
    have h0 : (0 : ℚ) ∈ vecList n (fun a => post1 a - prior a) := by
      refine List.mem_map.mpr ⟨a0, List.mem_range.mpr ha0n, ?_⟩
      rw [ha0eq, sub_self]
    apply le_antisymm
    · -- ≤ min 0 specmin
      apply le_min
      · exact listMin_le h0
      · by_cases hdsnil : ds = []
        · rw [hdsnil]
          simpa [listMin] using listMin_le h0
        · have hmin_mem : listMin ds ∈ ds := listMin_mem hdsnil
          rcases List.mem_map.mp (hds ▸ hmin_mem) with ⟨k, hk, hkeq⟩
          have hin : listMin ds ∈ vecList n (fun a => post1 a - prior a) := by
            rw [← hkeq]
            exact hmemvec k hk
          exact listMin_le hin
    · -- ≥ min 0 specmin
      have hmem := listMin_mem hvecne
      rcases List.mem_map.mp hmem with ⟨a1, ha1, heq⟩
      by_cases hcase : a1 ∈ bestNT.map A
      · rcases List.mem_map.mp hcase with ⟨k, hk, rfl⟩
        have : post1 (A k) - prior (A k) ∈ ds := List.mem_map.mpr ⟨k, hk, rfl⟩
        calc min 0 (listMin ds) ≤ listMin ds := min_le_right _ _
          _ ≤ post1 (A k) - prior (A k) := listMin_le this
          _ = listMin (vecList n (fun a => post1 a - prior a)) := heq
      · have hzero : post1 a1 - prior a1 = 0 := by
          rw [hpost1_unchanged a1 hcase, sub_self]
        calc min 0 (listMin ds) ≤ 0 := min_le_left _ _
          _ = post1 a1 - prior a1 := hzero.symm
          _ = listMin (vecList n (fun a => post1 a - prior a)) := heq
  · -- (c) the bias is applied to each non-terminal remaining child
    intro k hk hterm hs hch
    set remaining := (npArgsort cvs).drop s with hremaining
    set remNT := remaining.filter (fun k => !(term.getD k true)) with hremNT
    have hrem_lt : ∀ j ∈ remNT, j < acts.length := by
      intro j hj
      have h2 : j ∈ npArgsort cvs := List.mem_of_mem_drop (List.mem_of_mem_filter hj)
      rw [← hlen]
      exact npArgsort_mem_lt h2
    have hremNT_nodup : remNT.Nodup :=
      (((npArgsort_nodup cvs).sublist (List.drop_sublist _ _)).filter _)
    have hremA_nodup : (remNT.map A).Nodup :=
      nodup_map_getD (validActions_nodup n valid) hremNT_nodup hrem_lt
    have hkNT : k ∈ remNT := by
      rw [hremNT]
      exact List.mem_filter.mpr ⟨hk, by rw [hterm]; rfl⟩
    have hch2 : changesCount n (mcts_prior_qs n cvs valid)
        (mcts_post1 n cvs valid term grands s) > 0 := hch
    have hq2 : (mcts_qvals n cvs valid term grands s).2 =
        remainingFold acts term (bias_correction n prior post1) post1 remaining := by
      unfold mcts_qvals
      rw [if_pos hs, if_pos hch2]
    rw [hq2]
    unfold remainingFold
    rw [foldl_skip_filter]
    exact foldl_update_keys_mem_add A (bias_correction n prior post1) remNT post1
      hremA_nodup k hkNT

/-- C6 counterexample: board with actions `{0, 1, 2}`, actions 0 and 1
valid, child values `[0, 1]`, both children non-terminal, one search
(`num_searches = 1`).  Child 0 is deepened: its Q rises from `0` to
`mean(0, 1) = 1/2`, so the minimum change among deepened children is
`+1/2`; but the code's bias `np.min(post_qs - prior_qs) = min(1/2, 0, 0)
= 0`, so the non-deepened child 1 keeps `post_qs[1] = -1` instead of the
claim's `-1 + 1/2`. -/
theorem mcts_bias_not_deepened_min_cex :
    (mcts_qvals 3 [0, 1] (fun i => if i < 2 then (1 : ℚ) else 0) [false, false]
        [[1], [0]] 1).1 1 = -1 ∧
    (mcts_qvals 3 [0, 1] (fun i => if i < 2 then (1 : ℚ) else 0) [false, false]
        [[1], [0]] 1).2 1 = -1 ∧
    spec_bias_correction 3 [0, 1] (fun i => if i < 2 then (1 : ℚ) else 0) [false, false]
      [[1], [0]] 1 = 1 / 2 ∧
    (mcts_qvals 3 [0, 1] (fun i => if i < 2 then (1 : ℚ) else 0) [false, false]
        [[1], [0]] 1).2 1 ≠
      (mcts_qvals 3 [0, 1] (fun i => if i < 2 then (1 : ℚ) else 0) [false, false]
          [[1], [0]] 1).1 1 +
        spec_bias_correction 3 [0, 1] (fun i => if i < 2 then (1 : ℚ) else 0)
          [false, false] [[1], [0]] 1 := by
  refine ⟨?_, ?_, ?_, ?_⟩ <;>
    norm_num [mcts_qvals, mcts_post1, mcts_prior_qs, spec_bias_correction, changesCount,
      bias_correction, remainingFold, deepenFold, vals_to_qs, validActions, npArgsort,
      sortLe, insertLe, listMin, npMin, vecList, npMean2, invert_val,
      Function.update_apply, List.range_succ, decide_eq_true_eq]

/-- C6 witness: the amended theorem applied at the counterexample input;
the bias the non-deepened child receives is `min 0` of the deepened
minimum. -/
theorem mcts_qvals_bias_spec_witness :
    bias_correction 3 (mcts_prior_qs 3 [0, 1] (fun i => if i < 2 then (1 : ℚ) else 0))
      (mcts_post1 3 [0, 1] (fun i => if i < 2 then (1 : ℚ) else 0) [false, false]
        [[1], [0]] 1) =
      min 0 (spec_bias_correction 3 [0, 1] (fun i => if i < 2 then (1 : ℚ) else 0)
        [false, false] [[1], [0]] 1) ∧
    (mcts_qvals 3 [0, 1] (fun i => if i < 2 then (1 : ℚ) else 0) [false, false]
        [[1], [0]] 1).2
      ((validActions 3 (fun i => if i < 2 then (1 : ℚ) else 0)).getD 1 0) =
      mcts_post1 3 [0, 1] (fun i => if i < 2 then (1 : ℚ) else 0) [false, false]
          [[1], [0]] 1
        ((validActions 3 (fun i => if i < 2 then (1 : ℚ) else 0)).getD 1 0) +
        bias_correction 3 (mcts_prior_qs 3 [0, 1] (fun i => if i < 2 then (1 : ℚ) else 0))
          (mcts_post1 3 [0, 1] (fun i => if i < 2 then (1 : ℚ) else 0) [false, false]
            [[1], [0]] 1) := by
  obtain ⟨_, hb, hc⟩ := mcts_qvals_bias_spec 3 [0, 1]
    (fun i => if i < 2 then (1 : ℚ) else 0) [false, false] [[1], [0]] 1 (by decide)
    ⟨2, by norm_num, by
      norm_num [mcts_post1, mcts_prior_qs, deepenFold, vals_to_qs, validActions,
        npArgsort, sortLe, insertLe, npMean2, listMin, invert_val, Function.update_apply,
        List.range_succ, decide_eq_true_eq]⟩
  refine ⟨hb, hc 1 (by decide) (by decide) (by decide) ?_⟩
  norm_num [mcts_post1, mcts_prior_qs, deepenFold, vals_to_qs, validActions, npArgsort,
    sortLe, insertLe, npMean2, listMin, invert_val, Function.update_apply,
    List.range_succ, decide_eq_true_eq, changesCount, vecList]

end GoAI
